import Mathlib

set_option maxHeartbeats 1000000

/-!
Verification development for the `ck` broom bot (repository `ck-broom-bot`).

The whole program lives in `src/index.ts`.  This file gives a shallow
embedding of its scan / restore pipeline:

* source text and declaration text are byte lists (`List Nat`, each byte
  below 256), mirroring the UTF-8 byte strings that `Buffer` handles;
* JavaScript numbers that carry confidence values are modelled as `ℚ`
  (the constants 0.9, 0.95, 0.98 and thresholds are exact decimals);
* timestamps (`Date.now()`, `new Date()`) are modelled as `Int`
  milliseconds, supplied by explicit clock parameters;
* the MongoDB collection is a list of records, the file system a map
  `String → Option (List Nat)`;
* the `while` loop of the reachability scan is a fuel-indexed recursion;
  `reachFuel` computes a fuel value that is proved sufficient.
-/

namespace Ck

/-! ### String helpers (kernel-friendly re-implementations of JS string ops) -/

/-- Mirrors `p.replace(/\\/g, "/")` from `norm` in `src/index.ts`. -/
def normPath (p : String) : String :=
  String.mk (p.data.map (fun c => if c = '\\' then '/' else c))

/-- Mirrors JavaScript `s.startsWith(t)`. -/
def strStartsWith (s t : String) : Bool :=
  t.data.isPrefixOf s.data

/-- Mirrors JavaScript `s.endsWith(t)`. -/
def strEndsWith (s t : String) : Bool :=
  t.data.isSuffixOf s.data

/-- Mirrors JavaScript `s.includes(pat)` (unanchored substring test). -/
def listContainsSub (s pat : List Char) : Bool :=
  (List.range (s.length + 1)).any (fun i => pat.isPrefixOf (s.drop i))

/-- Substring test on `String`s. -/
def strContainsSub (s pat : String) : Bool :=
  listContainsSub s.data pat.data

/-- Indices at which `pat` occurs in `s`. -/
def subIdxs (s pat : List Char) : List Nat :=
  (List.range (s.length + 1)).filter (fun i => pat.isPrefixOf (s.drop i))

/-- Mirrors JavaScript `s.lastIndexOf(pat)` (`none` for `-1`). -/
def lastSubIdx (s pat : List Char) : Option Nat :=
  (subIdxs s pat).getLast?

/-- Directory of a path: mirrors `sf.getDirectory().getPath()` for a file
whose path is `p` (everything before the last `/`). -/
def dirOf (p : String) : String :=
  match p.data.reverse.dropWhile (fun c => c ≠ '/') with
  | [] => ""
  | _ :: rest => String.mk rest.reverse

/-! ### Data model

A `SourceUnit` is one loaded source file together with the facts that the
parsing collaborator (ts-morph) reports about it: its import specifiers
and its declarations.  A `Decl` records, for one declaration node, the
node kind (as the kind-predicate of ts-morph would classify it), its
name, whether it is exported (`isExported()` for functions and classes,
the enclosing statement's `isExported()` for variable declarations),
the total number of syntactic references `findReferences()` resolves
(the declaration site included), its raw text and its line range. -/

structure Decl where
  kind : String
  name : String
  exported : Bool
  refCount : Nat
  text : List Nat
  startLine : Int
  endLine : Int
deriving DecidableEq, Repr

structure SourceUnit where
  path : String
  text : List Nat
  imports : List String
  decls : List Decl
deriving DecidableEq, Repr

/-- Mirrors `norm(sf)` from `src/index.ts`. -/
def norm (sf : SourceUnit) : String :=
  normPath sf.path

/-- Mirrors `rel(sf, srcDir)` from `src/index.ts`: the path from the last
occurrence of `/srcDir/` on (slicing from index `i + 1`), or the whole
normalized path when the marker does not occur. -/
def rel (sf : SourceUnit) (srcDir : String) : String :=
  let p := norm sf
  match lastSubIdx p.data ("/" ++ srcDir ++ "/").data with
  | some i => String.mk (p.data.drop (i + 1))
  | none => p

/-- Mirrors `isDefinitelyKeep` from `src/index.ts`.  The regex
`(\.d\.ts|\.types\.ts|\.stories\.tsx?|\.test\.tsx?|__mocks__|\.config\.ts|\.config\.js)`
is unanchored, so it matches exactly when one of the alternatives occurs
as a substring; an occurrence of `.stories.tsx` (resp. `.test.tsx`)
contains an occurrence of `.stories.ts` (resp. `.test.ts`), so the
optional `x` does not change the substring condition. -/
def isDefinitelyKeep (sf : SourceUnit) : Bool :=
  let p := norm sf
  strContainsSub p ".d.ts" || strContainsSub p ".types.ts" ||
  strContainsSub p ".stories.ts" || strContainsSub p ".test.ts" ||
  strContainsSub p "__mocks__" || strContainsSub p ".config.ts" ||
  strContainsSub p ".config.js"

/-- Mirrors `getLanguage` from `src/index.ts`. -/
def getLanguage (sf : SourceUnit) : String :=
  if strEndsWith sf.path ".ts" || strEndsWith sf.path ".tsx" then "ts" else "js"

/-- Mirrors `nodeType` from `src/index.ts`. -/
def nodeType (d : Decl) : String :=
  if d.kind = "function" then "function"
  else if d.kind = "method" then "method"
  else if d.kind = "variable" then "variable"
  else if d.kind = "class" then "class"
  else "variable"

/-- Mirrors `readableName` from `src/index.ts`; the empty name plays the
role of the `undefined` that `getName()` returns on anonymous nodes, so
`getName() || "<anonymous>"` becomes a test against the empty string. -/
def readableName (d : Decl) : String :=
  if d.kind = "function" || d.kind = "class" then
    (if d.name = "" then "<anonymous>" else d.name)
  else if d.kind = "variable" || d.kind = "method" then d.name
  else "<unknown>"

/-! ### Import resolution and reachability -/

/-- Mirrors the `tryPaths` candidate list of `resolveImport`. -/
def tryPaths (spec : String) : List String :=
  [spec, spec ++ ".ts", spec ++ ".tsx", spec ++ ".js", spec ++ ".jsx",
   spec ++ "/index.ts", spec ++ "/index.tsx"]

/-- Mirrors `sourceByPath`: insertion-ordered map from normalized path
to source unit, built from the filtered file list. -/
def mapOf (files : List SourceUnit) : List (String × SourceUnit) :=
  files.map (fun f => (norm f, f))

/-- Mirrors `resolveImport(from, spec, map)` from `src/index.ts`:
for a relative or absolute specifier, try each candidate suffix in order
and return the first map entry whose key ends with the candidate's
absolute path (normalized to forward slashes). -/
def resolveImport (frm : SourceUnit) (spec : String)
    (map : List (String × SourceUnit)) : Option SourceUnit :=
  if strStartsWith spec "." || strStartsWith spec "/" then
    (tryPaths spec).findSome? (fun t =>
      let abs := dirOf frm.path ++ "/" ++ t
      (map.find? (fun kv => strEndsWith kv.1 (normPath abs))).map (fun kv => kv.2))
  else
    none

/-- One fuel-indexed unfolding of the `while (stack.length)` reachability
loop of `scanCommand` (lines 102–114 of `src/index.ts`).  The stack is a
LIFO list with its head as top (`push`/`pop` operate on the head, so the
units pushed inside one iteration are consumed in reverse push order,
as with a JS array used as a stack).  `reachFuel` below is proved to be
enough fuel for the loop to run to completion. -/
def reachLoopF (map : List (String × SourceUnit)) :
    Nat → List SourceUnit → List String → List String
  | 0, _, reachable => reachable
  | _ + 1, [], reachable => reachable
  | fuel + 1, sf :: rest, reachable =>
    if norm sf ∈ reachable then
      reachLoopF map fuel rest reachable
    else
      let reachable2 := norm sf :: reachable
      let pushes := sf.imports.filterMap (fun t =>
        match resolveImport sf t map with
        | some r => if norm r ∈ reachable2 then none else some r
        | none => none)
      reachLoopF map fuel (pushes.reverse ++ rest) reachable2

/-- Upper bound on the number of imports of any of the given units. -/
def maxImports (units : List SourceUnit) : Nat :=
  units.foldr (fun u a => max u.imports.length a) 0

/-- Fuel that provably suffices for the reachability loop. -/
def reachFuel (files entry : List SourceUnit) : Nat :=
  (files.length + entry.length) * (maxImports (entry ++ files) + 2) + entry.length + 1

/-- The set of normalized paths reachable from the entry units, as the
worklist loop of `scanCommand` computes it.  The initial JS stack is the
entry array popped from its end, hence the reversal. -/
def computeReachable (files entry : List SourceUnit) : List String :=
  reachLoopF (mapOf files) (reachFuel files entry) entry.reverse []

/-- Mirrors line 117 of `src/index.ts`:
`files.filter(f => !reachable.has(norm(f)) && !isDefinitelyKeep(f))`. -/
def unreachableOf (files : List SourceUnit) (reachable : List String) :
    List SourceUnit :=
  files.filter (fun f => decide (norm f ∉ reachable ∧ isDefinitelyKeep f = false))

/-! ### Usage detection -/

/-- One entry of the `unusedSymbols` array of `scanCommand`. -/
structure UnusedSym where
  node : Decl
  file : SourceUnit
  type : String
  name : String
  reason : String
  confidence : ℚ
deriving DecidableEq, Repr

/-- The unused symbols contributed by one source unit (lines 124–189 of
`src/index.ts`): first the exported-declarations loop (function, class
and variable declarations among `getExportedDeclarations()`, modelled as
the exported declarations of the unit), pushed with confidence 0.95 when
at most one reference exists; then the descendant sweep with its four
independent kind tests, pushed with confidence 0.9. -/
def unusedIn (sf : SourceUnit) : List UnusedSym :=
  ((sf.decls.filter (fun d => d.exported)).flatMap (fun d =>
    if (d.kind = "function" ∨ d.kind = "class" ∨ d.kind = "variable")
        ∧ d.refCount ≤ 1 then
      [⟨d, sf, nodeType d, readableName d, "no_refs", mkRat 95 100⟩]
    else []))
  ++ sf.decls.flatMap (fun n =>
    (if n.kind = "function" ∧ n.exported = false ∧ n.refCount ≤ 1 then
      [⟨n, sf, "function", readableName n, "no_refs", mkRat 9 10⟩] else [])
    ++ (if n.kind = "class" ∧ n.exported = false ∧ n.refCount ≤ 1 then
      [⟨n, sf, "class", readableName n, "no_refs", mkRat 9 10⟩] else [])
    ++ (if n.kind = "variable" ∧ n.exported = false ∧ n.refCount ≤ 1 then
      [⟨n, sf, "variable", readableName n, "no_refs", mkRat 9 10⟩] else [])
    ++ (if n.kind = "method" ∧ n.refCount ≤ 1 then
      [⟨n, sf, "method", readableName n, "no_refs", mkRat 9 10⟩] else []))

/-- The full `unusedSymbols` list.  Faithful to the source: the loop at
line 122 runs over all files of the source directory, not only over the
reachable ones. -/
def unusedSymbolsOf (files : List SourceUnit) : List UnusedSym :=
  files.flatMap unusedIn

/-- The unused symbols that survive the confidence threshold
(`if (u.confidence < opts.confidence) continue;`, line 230). -/
def archivedSymsOf (files : List SourceUnit) (conf : ℚ) : List UnusedSym :=
  (unusedSymbolsOf files).filter (fun u => decide (¬ u.confidence < conf))

/-! ### Base64 (the `Buffer` collaborator used by `toB64` and restore) -/

/-- The base64 alphabet. -/
def b64Alphabet : List Char :=
  "ABCDEFGHIJKLMNOPQRSTUVWXYZabcdefghijklmnopqrstuvwxyz0123456789+/".data

/-- Character of a sextet. -/
def b64Char (n : Nat) : Char :=
  b64Alphabet.getD n 'A'

/-- Sextet of a character; `none` for padding and foreign characters
(which `Buffer.from(_, "base64")` skips). -/
def b64Val? (c : Char) : Option Nat :=
  b64Alphabet.findIdx? (fun x => x = c)

/-- Base64 encoding of a byte list, with `=` padding, as
`Buffer.from(bytes).toString("base64")` produces it. -/
def b64encode : List Nat → List Char
  | a :: b :: c :: rest =>
    b64Char (a / 4) :: b64Char ((a % 4) * 16 + b / 16) ::
    b64Char ((b % 16) * 4 + c / 64) :: b64Char (c % 64) :: b64encode rest
  | [a, b] =>
    [b64Char (a / 4), b64Char ((a % 4) * 16 + b / 16), b64Char ((b % 16) * 4), '=']
  | [a] =>
    [b64Char (a / 4), b64Char ((a % 4) * 16), '=', '=']
  | [] => []

/-- Reassemble bytes from a stream of sextets (4 sextets to 3 bytes,
with the shortened terminal groups of a padded encoding). -/
def sextetsToBytes : List Nat → List Nat
  | s0 :: s1 :: s2 :: s3 :: rest =>
    (s0 * 4 + s1 / 16) :: ((s1 % 16) * 16 + s2 / 4) :: ((s2 % 4) * 64 + s3) ::
    sextetsToBytes rest
  | [s0, s1, s2] => [s0 * 4 + s1 / 16, (s1 % 16) * 16 + s2 / 4]
  | [s0, s1] => [s0 * 4 + s1 / 16]
  | _ => []

/-- Base64 decoding as `Buffer.from(str, "base64")` performs it:
non-alphabet characters (padding included) are skipped, then sextets are
packed back into bytes. -/
def b64decode (cs : List Char) : List Nat :=
  sextetsToBytes (cs.filterMap b64Val?)

/-- Mirrors `toB64` from `src/index.ts` on the byte view of the text. -/
def toB64 (bytes : List Nat) : List Char :=
  b64encode bytes

/-! ### Archive records -/

/-- The persisted record shape (`interface ArchiveItem`), the store id
excluded (the store assigns it). -/
structure ArchiveItem where
  createdAt : Int
  expiresAt : Int
  repo : String
  commit : String
  language : String
  type : String
  name : Option String
  path : String
  range : Option ((Int × Int) × (Int × Int))
  reason : String
  confidence : ℚ
  references : List (String × Int)
  contentB64 : List Char
  note : Option String
deriving DecidableEq, Repr

/-- The record built for one unreachable file (lines 203–216 of
`src/index.ts`); `t` is the value of the item's `new Date()` call and
`ttl` the single expiry timestamp computed before the loops. -/
def mkFileItem (repo commit srcDir : String) (ttl t : Int) (sf : SourceUnit) :
    ArchiveItem where
  createdAt := t
  expiresAt := ttl
  repo := repo
  commit := commit
  language := getLanguage sf
  type := "file"
  name := none
  path := rel sf srcDir
  range := none
  reason := "unreachable_file"
  confidence := mkRat 98 100
  references := []
  contentB64 := toB64 sf.text
  note := some "ck unreachable file"

/-- The record built for one archived unused symbol (lines 232–246 of
`src/index.ts`), with `toRange` inlined (columns are always 0). -/
def mkSymItem (repo commit srcDir : String) (ttl t : Int) (u : UnusedSym) :
    ArchiveItem where
  createdAt := t
  expiresAt := ttl
  repo := repo
  commit := commit
  language := getLanguage u.file
  type := u.type
  name := some u.name
  path := rel u.file srcDir
  range := some ((u.node.startLine, 0), (u.node.endLine, 0))
  reason := u.reason
  confidence := u.confidence
  references := []
  contentB64 := toB64 u.node.text
  note := some "ck unused symbol"

/-- Map with the running insertion index, used to hand each insert its
own `new Date()` timestamp. -/
def mapWithIdx (f : Nat → α → β) : Nat → List α → List β
  | _, [] => []
  | i, x :: xs => f i x :: mapWithIdx f (i + 1) xs

/-! ### The scan pipeline -/

/-- The scan options that influence the archived data (`--entry`,
`--confidence`, `--apply`, `--src-dir`). -/
structure ScanOpts where
  entry : List String
  confidence : ℚ
  apply : Bool
  srcDir : String
deriving Repr

/-- Mirrors lines 91–94: restrict the project's files to the configured
source directory. -/
def filesOf (projectFiles : List SourceUnit) (srcDir : String) :
    List SourceUnit :=
  projectFiles.filter (fun f =>
    strContainsSub f.path ("/" ++ srcDir ++ "/") ||
    strContainsSub f.path ("\\" ++ srcDir ++ "\\"))

/-- Mirrors `defaultEntrypoints` from `src/index.ts`. -/
def defaultEntrypoints (files : List SourceUnit) (srcDir : String) :
    List String :=
  [srcDir ++ "/index.ts", srcDir ++ "/index.tsx", srcDir ++ "/main.ts",
   srcDir ++ "/main.tsx", srcDir ++ "/app.tsx", srcDir ++ "/App.tsx"].filter
    (fun p => files.any (fun f => rel f srcDir == p))

/-- Mirrors lines 98–100: each entry path is resolved through
`project.getSourceFile` (modelled as a path-suffix lookup over the whole
project) and unresolved entries are dropped. -/
def entryUnitsOf (projectFiles files : List SourceUnit) (opts : ScanOpts) :
    List SourceUnit :=
  (if opts.entry.isEmpty then defaultEntrypoints files opts.srcDir
   else opts.entry).filterMap
    (fun p => projectFiles.find? (fun f => strEndsWith (norm f) (normPath p)))

/-- All records a scan inserts, in insertion order: the unreachable-file
records (all of them, no confidence test) followed by the unused-symbol
records that pass the threshold.  `t0` is the `Date.now()` read for the
expiry timestamp; `times k` is the value of the k-th per-record
`new Date()` call. -/
def persistedItems (projectFiles : List SourceUnit) (opts : ScanOpts)
    (repo commit : String) (t0 : Int) (times : Nat → Int) : List ArchiveItem :=
  let files := filesOf projectFiles opts.srcDir
  let entry := entryUnitsOf projectFiles files opts
  let reach := computeReachable files entry
  let unreach := unreachableOf files reach
  let ttl := t0 + 1000 * 60 * 60 * 24 * 90
  let syms := archivedSymsOf files opts.confidence
  mapWithIdx (fun i sf => mkFileItem repo commit opts.srcDir ttl (times i) sf) 0 unreach
  ++ mapWithIdx (fun i u => mkSymItem repo commit opts.srcDir ttl
       (times (unreach.length + i)) u) 0 syms

/-! ### The apply stage (file deletion and per-symbol save) -/

/-- File system: path to file bytes. -/
def FS : Type := String → Option (List Nat)

/-- Mirrors `fs.rmSync(p, force: true)`: total removal, a missing file
is simply left as is. -/
def rmForce (fs : FS) (p : String) : FS :=
  fun q => if q = p then none else fs q

/-- Mirrors a file write (`saveSync` / `writeFileSync`). -/
def fsWrite (fs : FS) (p : String) (c : List Nat) : FS :=
  fun q => if q = p then some c else fs q

/-- The file-system effect of the two archive loops: first, per
unreachable file, `rmSync(sf.getFilePath(), force)` when apply mode is
on; then, per archived symbol, `u.file.saveSync()` when apply mode is
on, which writes the unit's (unmodified) text back to its path. -/
def applyStage (fs : FS) (apply : Bool) (unreach : List SourceUnit)
    (syms : List UnusedSym) : FS :=
  let fs1 := unreach.foldl (fun acc sf => if apply then rmForce acc sf.path else acc) fs
  syms.foldl (fun acc u => if apply then fsWrite acc u.file.path u.file.text else acc) fs1

/-- Console events of the two archive loops, keeping exactly the
distinctions the logs make. -/
inductive ScanEvent where
  | fileArchived (path : String)
  | fileDeleted (path : String)
  | symbolArchived (name path : String)
  | symbolRemovalNotImplemented (name : String)
  | symbolMarkedArchived (name : String)
deriving DecidableEq, Repr

/-- The events of the two archive loops, in order: per unreachable file
the archive line and, in apply mode, the deletion line; per archived
symbol the archive line and, in apply mode, the
`Node removal not implemented yet` warning followed by the `archived`
line (the symbol loop never prints the deletion line). -/
def scanEventsOf (unreach : List SourceUnit) (syms : List UnusedSym)
    (apply : Bool) (srcDir : String) : List ScanEvent :=
  unreach.flatMap (fun sf =>
    ScanEvent.fileArchived (rel sf srcDir) ::
    (if apply then [ScanEvent.fileDeleted (rel sf srcDir)] else []))
  ++ syms.flatMap (fun u =>
    ScanEvent.symbolArchived u.name (rel u.file srcDir) ::
    (if apply then [ScanEvent.symbolRemovalNotImplemented u.name,
                    ScanEvent.symbolMarkedArchived u.name] else []))

/-- End-to-end file-system state after one scan. -/
def scanFinalFS (projectFiles : List SourceUnit) (opts : ScanOpts) (fs : FS) : FS :=
  let files := filesOf projectFiles opts.srcDir
  let entry := entryUnitsOf projectFiles files opts
  let reach := computeReachable files entry
  applyStage fs opts.apply (unreachableOf files reach)
    (archivedSymsOf files opts.confidence)

/-- End-to-end events of one scan. -/
def scanEvents (projectFiles : List SourceUnit) (opts : ScanOpts) : List ScanEvent :=
  let files := filesOf projectFiles opts.srcDir
  let entry := entryUnitsOf projectFiles files opts
  let reach := computeReachable files entry
  scanEventsOf (unreachableOf files reach)
    (archivedSymsOf files opts.confidence) opts.apply opts.srcDir

/-! ### Restore -/

/-- Hexadecimal digit test. -/
def isHexDigit (c : Char) : Bool :=
  ('0' ≤ c && c ≤ '9') || ('a' ≤ c && c ≤ 'f') || ('A' ≤ c && c ≤ 'F')

/-- Strings the `ObjectId` constructor of the MongoDB driver accepts:
a 24-character hexadecimal string (or a legacy 12-character byte
string); every other string makes `new ObjectId(id)` throw a BSON
error. -/
def isValidObjectIdStr (s : String) : Bool :=
  (s.length = 24 && s.data.all isHexDigit) || s.length = 12

/-- Observable outcome of one `restore` invocation. -/
structure RestoreResult where
  exitCode : Nat
  crashed : Bool
  written : List (String × List Nat)
  printed : Option (List Nat)
deriving DecidableEq, Repr

/-- Mirrors `restoreCommand` from `src/index.ts`: missing store URI is a
clean exit 1; an id the `ObjectId` constructor rejects is an uncaught
exception (the process crashes, Node terminating it with exit code 1);
an id absent from the store is a clean `not found` exit 1 with nothing
written; otherwise the stored base64 content is decoded and either
written to the output path or printed. -/
def restoreCommand (id : String) (mongoUri : String) (output : Option String)
    (store : List (String × ArchiveItem)) : RestoreResult :=
  if mongoUri = "" then ⟨1, false, [], none⟩
  else if ¬ isValidObjectIdStr id then ⟨1, true, [], none⟩
  else
    match store.find? (fun kv => kv.1 = id) with
    | none => ⟨1, false, [], none⟩
    | some kv =>
      let content := b64decode kv.2.contentB64
      match output with
      | some out => ⟨0, false, [(out, content)], none⟩
      | none => ⟨0, false, [], some content⟩

/-! ### Concrete fixtures

A two-file project: `/proj/src/index.ts` is the entry point and imports
nothing; `/proj/src/dead.ts` is imported by nobody and holds one
non-exported function declaration `deadFn` whose only reference is its
own declaration site. -/

def exA : SourceUnit :=
  { path := "/proj/src/index.ts", text := [97], imports := [], decls := [] }

def exDeadFn : Decl :=
  { kind := "function", name := "deadFn", exported := false, refCount := 1,
    text := [99, 100], startLine := 1, endLine := 2 }

def exB : SourceUnit :=
  { path := "/proj/src/dead.ts", text := [98, 10], imports := [], decls := [exDeadFn] }

def exProject : List SourceUnit := [exA, exB]

/-- Scan options with the default threshold 0.9, report mode. -/
def exOpts : ScanOpts :=
  { entry := ["src/index.ts"], confidence := mkRat 9 10, apply := false, srcDir := "src" }

/-- Same scan with apply mode on. -/
def exOptsApply : ScanOpts :=
  { entry := ["src/index.ts"], confidence := mkRat 9 10, apply := true, srcDir := "src" }

/-- Same scan with threshold 1.0. -/
def exOptsStrict : ScanOpts :=
  { entry := ["src/index.ts"], confidence := mkRat 1 1, apply := false, srcDir := "src" }

/-- A keep-exempt unit (a test file), unreachable from any entry point. -/
def exKeep : SourceUnit :=
  { path := "/proj/src/util.test.ts", text := [116], imports := [], decls := [] }

/-- Initial file system of the two-file project. -/
def exFS : FS := fun q =>
  if q = "/proj/src/index.ts" then some [97]
  else if q = "/proj/src/dead.ts" then some [98, 10]
  else none

/-- The unused-symbol entry the scan of the two-file project produces. -/
def exUnused : UnusedSym :=
  { node := exDeadFn, file := exB, type := "function", name := "deadFn",
    reason := "no_refs", confidence := mkRat 9 10 }

end Ck

namespace Ck

/-! ## Helper lemmas -/

/-- The base64 alphabet round-trips on sextets. -/
theorem b64Val_b64Char : ∀ n, n < 64 → b64Val? (b64Char n) = some n := by decide

/-- Padding characters are skipped by the decoder. -/
theorem b64Val_pad : b64Val? '=' = none := by decide

/-- Decoding inverts encoding on byte lists. -/
theorem b64_roundtrip : ∀ bs : List Nat, (∀ x ∈ bs, x < 256) →
    b64decode (b64encode bs) = bs
  | a :: b :: c :: rest, h => by
    have ha : a < 256 := h a (by simp)
    have hb : b < 256 := h b (by simp)
    have hc : c < 256 := h c (by simp)
    have ih := b64_roundtrip rest (fun x hx => h x (by simp [hx]))
    show b64decode (b64Char (a / 4) :: b64Char ((a % 4) * 16 + b / 16) ::
      b64Char ((b % 16) * 4 + c / 64) :: b64Char (c % 64) :: b64encode rest)
      = a :: b :: c :: rest
    unfold b64decode at ih ⊢
    rw [List.filterMap_cons, b64Val_b64Char _ (by omega), List.filterMap_cons,
      b64Val_b64Char _ (by omega), List.filterMap_cons, b64Val_b64Char _ (by omega),
      List.filterMap_cons, b64Val_b64Char _ (by omega)]
    show sextetsToBytes (_ :: _ :: _ :: _ :: _) = _
    rw [sextetsToBytes, ih]
    simp only [List.cons.injEq, and_true]
    refine ⟨by omega, by omega, by omega⟩
  | [a, b], h => by
    have ha : a < 256 := h a (by simp)
    have hb : b < 256 := h b (by simp)
    show b64decode [b64Char (a / 4), b64Char ((a % 4) * 16 + b / 16),
      b64Char ((b % 16) * 4), '='] = [a, b]
    unfold b64decode
    rw [List.filterMap_cons, b64Val_b64Char _ (by omega), List.filterMap_cons,
      b64Val_b64Char _ (by omega), List.filterMap_cons, b64Val_b64Char _ (by omega),
      List.filterMap_cons, b64Val_pad, List.filterMap_nil]
    show sextetsToBytes [_, _, _] = _
    rw [sextetsToBytes]
    simp only [List.cons.injEq, and_true]
    refine ⟨by omega, by omega⟩
  | [a], h => by
    have ha : a < 256 := h a (by simp)
    show b64decode [b64Char (a / 4), b64Char ((a % 4) * 16), '=', '='] = [a]
    unfold b64decode
    rw [List.filterMap_cons, b64Val_b64Char _ (by omega), List.filterMap_cons,
      b64Val_b64Char _ (by omega), List.filterMap_cons, b64Val_pad,
      List.filterMap_cons, b64Val_pad, List.filterMap_nil]
    show sextetsToBytes [_, _] = _
    rw [sextetsToBytes]
    simp only [List.cons.injEq, and_true]
    omega
  | [], _ => rfl

/-- Membership through `mapWithIdx`. -/
theorem mem_mapWithIdx {α β : Type} {f : Nat → α → β} :
    ∀ {i : Nat} {l : List α} {y : β}, y ∈ mapWithIdx f i l →
      ∃ j x, x ∈ l ∧ y = f j x
  | i, [], y, h => by simp [mapWithIdx] at h
  | i, x :: xs, y, h => by
    rw [mapWithIdx] at h
    rcases List.mem_cons.mp h with h | h
    · exact ⟨i, x, by simp, h⟩
    · rcases mem_mapWithIdx h with ⟨j, z, hz, hy⟩
      exact ⟨j, z, by simp [hz], hy⟩

/-- A filter with a stronger predicate is at most as long. -/
theorem length_filter_mono {α : Type} {p q : α → Bool} (l : List α)
    (h : ∀ x, p x = true → q x = true) :
    (l.filter p).length ≤ (l.filter q).length := by
  induction l with
  | nil => simp
  | cons a t ih =>
    cases hp : p a
    · cases hq : q a
      · simpa [List.filter_cons, hp, hq] using ih
      · simp only [List.filter_cons, hp, hq, Bool.false_eq_true, ite_false, ite_true,
          List.length_cons]
        omega
    · have hq : q a = true := h a hp
      simp only [List.filter_cons, hp, hq, ite_true, List.length_cons]
      omega

/-- A filter with a stronger predicate that loses a member of the list is
strictly shorter. -/
theorem length_filter_lt {α : Type} {p q : α → Bool} {l : List α} {a : α}
    (ha : a ∈ l) (hqa : q a = true) (hpa : p a = false)
    (himp : ∀ x, p x = true → q x = true) :
    (l.filter p).length < (l.filter q).length := by
  induction l with
  | nil => cases ha
  | cons b t ih =>
    rcases List.mem_cons.mp ha with rfl | hbt
    · simp only [List.filter_cons, hpa, hqa, if_true, Bool.false_eq_true, ite_false,
        List.length_cons]
      exact Nat.lt_succ_of_le (length_filter_mono t himp)
    · cases hp : p b
      · cases hq : q b
        · simpa [List.filter_cons, hp, hq] using ih hbt
        · simp only [List.filter_cons, hp, hq, Bool.false_eq_true, ite_false, ite_true,
            List.length_cons]
          exact Nat.lt_succ_of_lt (ih hbt)
      · have hq : q b = true := himp b hp
        simp only [List.filter_cons, hp, hq, ite_true, List.length_cons]
        exact Nat.succ_lt_succ (ih hbt)

/-- Every unit's import count is bounded by `maxImports`. -/
theorem le_maxImports {u : SourceUnit} :
    ∀ {units : List SourceUnit}, u ∈ units → u.imports.length ≤ maxImports units := by
  intro units hu
  induction units with
  | nil => cases hu
  | cons v t ih =>
    rcases List.mem_cons.mp hu with rfl | ht
    · exact le_max_left _ _
    · exact le_trans (ih ht) (le_max_right _ _)

/-- A resolved import is a value of the path map. -/
theorem resolveImport_mem {frm : SourceUnit} {spec : String}
    {map : List (String × SourceUnit)} {r : SourceUnit}
    (h : resolveImport frm spec map = some r) : ∃ k, (k, r) ∈ map := by
  unfold resolveImport at h
  split at h
  · rcases List.exists_of_findSome?_eq_some h with ⟨t, ht, hft⟩
    simp only [Option.map_eq_some'] at hft
    rcases hft with ⟨kv, hfind, hsnd⟩
    refine ⟨kv.1, ?_⟩
    have : kv ∈ map := List.mem_of_find?_eq_some hfind
    rwa [← hsnd]
  · cases h

end Ck

namespace Ck

/-- Characterization of the units pushed in one loop iteration. -/
theorem mem_pushes {sf : SourceUnit} {map : List (String × SourceUnit)}
    {reach2 : List String} {r : SourceUnit} :
    r ∈ sf.imports.filterMap (fun t =>
      match resolveImport sf t map with
      | some r' => if norm r' ∈ reach2 then none else some r'
      | none => none) ↔
    ∃ t ∈ sf.imports, resolveImport sf t map = some r ∧ norm r ∉ reach2 := by
  rw [List.mem_filterMap]
  constructor
  · rintro ⟨t, ht, hg⟩
    refine ⟨t, ht, ?_⟩
    rcases hres : resolveImport sf t map with _ | r'
    · simp only [hres] at hg
      cases hg
    · simp only [hres] at hg
      by_cases hm : norm r' ∈ reach2
      · rw [if_pos hm] at hg
        cases hg
      · rw [if_neg hm] at hg
        cases hg
        exact ⟨rfl, hm⟩
  · rintro ⟨t, ht, hres, hnm⟩
    refine ⟨t, ht, ?_⟩
    simp only [hres]
    rw [if_neg hnm]

/-- Main invariant of the fueled reachability loop: with enough fuel, the
result extends the visited set, contains every stacked unit, and is
closed under resolvable imports of the known units. -/
theorem reachLoopF_spec
    (map : List (String × SourceUnit)) (univ : List String)
    (units : List SourceUnit) (K : Nat)
    (hmapU : ∀ kv ∈ map, norm kv.2 ∈ univ)
    (hmapUnits : ∀ kv ∈ map, kv.2 ∈ units)
    (hmapK : ∀ kv ∈ map, kv.2.imports.length ≤ K)
    (hdet : ∀ u ∈ units, ∀ v ∈ units, norm u = norm v → u = v) :
    ∀ (fuel : Nat) (stack : List SourceUnit) (reachable : List String),
      (univ.filter (fun p => decide (p ∉ reachable))).length * (K + 2) + stack.length < fuel →
      (∀ u ∈ stack, norm u ∈ univ) →
      (∀ u ∈ stack, u ∈ units) →
      (∀ u ∈ stack, u.imports.length ≤ K) →
      (∀ u ∈ units, norm u ∈ reachable → ∀ t ∈ u.imports, ∀ r,
        resolveImport u t map = some r →
        norm r ∈ reachable ∨ norm r ∈ stack.map norm) →
      (∀ p ∈ reachable, p ∈ reachLoopF map fuel stack reachable) ∧
      (∀ u ∈ stack, norm u ∈ reachLoopF map fuel stack reachable) ∧
      (∀ u ∈ units, norm u ∈ reachLoopF map fuel stack reachable → ∀ t ∈ u.imports, ∀ r,
        resolveImport u t map = some r → norm r ∈ reachLoopF map fuel stack reachable) := by
  intro fuel
  induction fuel with
  | zero =>
    intro stack reachable hm
    exact absurd hm (by omega)
  | succ fuel ih =>
    intro stack reachable hm hsU hsUnits hsK hInv
    cases stack with
    | nil =>
      rw [reachLoopF]
      refine ⟨fun p hp => hp, by simp, ?_⟩
      intro u hu hmem t ht r hres
      rcases hInv u hu hmem t ht r hres with h | h
      · exact h
      · simp at h
    | cons sf rest =>
      by_cases hmem : norm sf ∈ reachable
      · rw [reachLoopF, if_pos hmem]
        have hm2 : (univ.filter (fun p => decide (p ∉ reachable))).length * (K + 2)
            + rest.length < fuel := by
          simp only [List.length_cons] at hm
          omega
        have hInv2 : ∀ u ∈ units, norm u ∈ reachable → ∀ t ∈ u.imports, ∀ r,
            resolveImport u t map = some r →
            norm r ∈ reachable ∨ norm r ∈ rest.map norm := by
          intro u hu hmem2 t ht r hres
          rcases hInv u hu hmem2 t ht r hres with h | h
          · exact Or.inl h
          · rcases List.mem_map.mp h with ⟨v, hv, hnv⟩
            rcases List.mem_cons.mp hv with rfl | hv2
            · exact Or.inl (hnv ▸ hmem)
            · exact Or.inr (List.mem_map.mpr ⟨v, hv2, hnv⟩)
        obtain ⟨h1, h2, h3⟩ := ih rest reachable hm2
          (fun u hu => hsU u (List.mem_cons_of_mem _ hu))
          (fun u hu => hsUnits u (List.mem_cons_of_mem _ hu))
          (fun u hu => hsK u (List.mem_cons_of_mem _ hu)) hInv2
        refine ⟨h1, ?_, h3⟩
        intro u hu
        rcases List.mem_cons.mp hu with rfl | hu2
        · exact h1 _ hmem
        · exact h2 u hu2
      · rw [reachLoopF, if_neg hmem]
        simp only []
        set reach2 := norm sf :: reachable with hreach2
        set pushes := sf.imports.filterMap (fun t =>
          match resolveImport sf t map with
          | some r => if norm r ∈ reach2 then none else some r
          | none => none) with hpushes
        have hsfU : norm sf ∈ univ := hsU sf (List.mem_cons_self _ _)
        have hsfUnits : sf ∈ units := hsUnits sf (List.mem_cons_self _ _)
        have hsfK : sf.imports.length ≤ K := hsK sf (List.mem_cons_self _ _)
        have hpush_map : ∀ r ∈ pushes, ∃ k, (k, r) ∈ map := by
          intro r hr
          rcases mem_pushes.mp hr with ⟨t, ht, hres, _⟩
          exact resolveImport_mem hres
        -- fuel accounting
        have hflt : (univ.filter (fun p => decide (p ∉ reach2))).length <
            (univ.filter (fun p => decide (p ∉ reachable))).length := by
          refine length_filter_lt (a := norm sf) hsfU (by simpa using hmem) (by simp [hreach2]) ?_
          intro x hx
          simp only [decide_eq_true_eq] at hx ⊢
          intro hc
          exact hx (List.mem_cons_of_mem _ hc)
        have hplen : pushes.length ≤ K :=
          le_trans (List.length_filterMap_le _ _) hsfK
        have hm2 : (univ.filter (fun p => decide (p ∉ reach2))).length * (K + 2)
            + (pushes.reverse ++ rest).length < fuel := by
          have hmul : ((univ.filter (fun p => decide (p ∉ reach2))).length + 1) * (K + 2)
              ≤ (univ.filter (fun p => decide (p ∉ reachable))).length * (K + 2) :=
            Nat.mul_le_mul_right _ (by omega)
          rw [Nat.succ_mul] at hmul
          have hlen : (pushes.reverse ++ rest).length = pushes.length + rest.length := by
            simp
          simp only [List.length_cons] at hm
          set X := (univ.filter (fun p => decide (p ∉ reach2))).length * (K + 2) with hX
          set Y := (univ.filter (fun p => decide (p ∉ reachable))).length * (K + 2) with hY
          omega
        have hsU2 : ∀ u ∈ pushes.reverse ++ rest, norm u ∈ univ := by
          intro u hu
          rcases List.mem_append.mp hu with hu | hu
          · rcases hpush_map u (List.mem_reverse.mp hu) with ⟨k, hk⟩
            exact hmapU (k, u) hk
          · exact hsU u (List.mem_cons_of_mem _ hu)
        have hsUnits2 : ∀ u ∈ pushes.reverse ++ rest, u ∈ units := by
          intro u hu
          rcases List.mem_append.mp hu with hu | hu
          · rcases hpush_map u (List.mem_reverse.mp hu) with ⟨k, hk⟩
            exact hmapUnits (k, u) hk
          · exact hsUnits u (List.mem_cons_of_mem _ hu)
        have hsK2 : ∀ u ∈ pushes.reverse ++ rest, u.imports.length ≤ K := by
          intro u hu
          rcases List.mem_append.mp hu with hu | hu
          · rcases hpush_map u (List.mem_reverse.mp hu) with ⟨k, hk⟩
            exact hmapK (k, u) hk
          · exact hsK u (List.mem_cons_of_mem _ hu)
        have hInv2 : ∀ u ∈ units, norm u ∈ reach2 → ∀ t ∈ u.imports, ∀ r,
            resolveImport u t map = some r →
            norm r ∈ reach2 ∨ norm r ∈ (pushes.reverse ++ rest).map norm := by
          intro u hu hmem2 t ht r hres
          rcases List.mem_cons.mp hmem2 with hsame | hold
          · have : u = sf := hdet u hu sf hsfUnits hsame
            subst this
            by_cases hr2 : norm r ∈ reach2
            · exact Or.inl hr2
            · refine Or.inr (List.mem_map.mpr ⟨r, ?_, rfl⟩)
              exact List.mem_append_left _ (List.mem_reverse.mpr
                (mem_pushes.mpr ⟨t, ht, hres, hr2⟩))
          · rcases hInv u hu hold t ht r hres with h | h
            · exact Or.inl (List.mem_cons_of_mem _ h)
            · rcases List.mem_map.mp h with ⟨v, hv, hnv⟩
              rcases List.mem_cons.mp hv with rfl | hv2
              · exact Or.inl (hnv ▸ List.mem_cons_self _ _)
              · exact Or.inr (List.mem_map.mpr ⟨v, List.mem_append_right _ hv2, hnv⟩)
        obtain ⟨h1, h2, h3⟩ := ih (pushes.reverse ++ rest) reach2 hm2 hsU2 hsUnits2 hsK2 hInv2
        refine ⟨?_, ?_, h3⟩
        · intro p hp
          exact h1 p (List.mem_cons_of_mem _ hp)
        · intro u hu
          rcases List.mem_cons.mp hu with rfl | hu2
          · exact h1 _ (List.mem_cons_self _ _)
          · exact h2 u (List.mem_append_right _ hu2)

end Ck

namespace Ck

/-- Values of the path map are files, keyed by their normalized path. -/
theorem mem_mapOf {files : List SourceUnit} {kv : String × SourceUnit}
    (h : kv ∈ mapOf files) : kv.2 ∈ files ∧ kv.1 = norm kv.2 := by
  simp only [mapOf, List.mem_map] at h
  rcases h with ⟨f, hf, hkv⟩
  subst hkv
  exact ⟨hf, rfl⟩

/-- The computed reachable set contains the entry units and is closed
under resolvable imports of any known unit. -/
theorem computeReachable_spec (files entry : List SourceUnit)
    (hdet : ∀ u ∈ entry ++ files, ∀ v ∈ entry ++ files, norm u = norm v → u = v) :
    (∀ e ∈ entry, norm e ∈ computeReachable files entry) ∧
    (∀ u ∈ entry ++ files, norm u ∈ computeReachable files entry →
      ∀ t ∈ u.imports, ∀ r, resolveImport u t (mapOf files) = some r →
        norm r ∈ computeReachable files entry) := by
  unfold computeReachable
  set univ := (mapOf files).map (fun kv => kv.1) ++ entry.map norm with huniv
  set K := maxImports (entry ++ files) with hK
  have hmapU : ∀ kv ∈ mapOf files, norm kv.2 ∈ univ := by
    intro kv hkv
    rcases mem_mapOf hkv with ⟨hf, hkey⟩
    exact List.mem_append_left _ (List.mem_map.mpr ⟨kv, hkv, hkey⟩)
  have hmapUnits : ∀ kv ∈ mapOf files, kv.2 ∈ entry ++ files := by
    intro kv hkv
    exact List.mem_append_right _ (mem_mapOf hkv).1
  have hmapK : ∀ kv ∈ mapOf files, kv.2.imports.length ≤ K := by
    intro kv hkv
    exact le_maxImports (hmapUnits kv hkv)
  have hsU : ∀ u ∈ entry.reverse, norm u ∈ univ := by
    intro u hu
    exact List.mem_append_right _ (List.mem_map.mpr ⟨u, List.mem_reverse.mp hu, rfl⟩)
  have hsUnits : ∀ u ∈ entry.reverse, u ∈ entry ++ files := fun u hu =>
    List.mem_append_left _ (List.mem_reverse.mp hu)
  have hsK : ∀ u ∈ entry.reverse, u.imports.length ≤ K := fun u hu =>
    le_maxImports (hsUnits u hu)
  have hInv : ∀ u ∈ entry ++ files, norm u ∈ ([] : List String) → ∀ t ∈ u.imports, ∀ r,
      resolveImport u t (mapOf files) = some r →
      norm r ∈ ([] : List String) ∨ norm r ∈ entry.reverse.map norm := by
    intro u _ h
    simp at h
  have hm : (univ.filter (fun p => decide (p ∉ ([] : List String)))).length * (K + 2)
      + entry.reverse.length < reachFuel files entry := by
    have h1 : univ.filter (fun p => decide (p ∉ ([] : List String))) = univ := by
      apply List.filter_eq_self.mpr
      intro a _
      simp
    have h2 : univ.length = files.length + entry.length := by
      simp [huniv, mapOf]
    rw [h1, h2, List.length_reverse, reachFuel, ← hK]
    omega
  obtain ⟨h1, h2, h3⟩ := reachLoopF_spec (mapOf files) univ (entry ++ files) K
    hmapU hmapUnits hmapK hdet (reachFuel files entry) entry.reverse [] hm hsU hsUnits hsK hInv
  refine ⟨?_, h3⟩
  intro e he
  exact h2 e (List.mem_reverse.mpr he)

/-- Files of the source directory are project files. -/
theorem mem_filesOf {pf : List SourceUnit} {s : String} {u : SourceUnit}
    (h : u ∈ filesOf pf s) : u ∈ pf :=
  List.mem_of_mem_filter h

/-- Resolved entry units are project files. -/
theorem mem_entryUnitsOf {pf files : List SourceUnit} {opts : ScanOpts} {u : SourceUnit}
    (h : u ∈ entryUnitsOf pf files opts) : u ∈ pf := by
  simp only [entryUnitsOf, List.mem_filterMap] at h
  rcases h with ⟨p, _, hfind⟩
  exact List.mem_of_find?_eq_some hfind

end Ck

namespace Ck

/-- The detector never produces the record type of a whole file. -/
theorem nodeType_ne_file (d : Decl) : nodeType d ≠ "file" := by
  unfold nodeType
  split_ifs <;> decide

/-- Everything the membership of one unit's unused-symbol list implies:
the owning file, the scanned declaration, the reference bound, the
reason, and the confidence constant of the producing branch. -/
theorem mem_unusedIn {sf : SourceUnit} {u : UnusedSym} (h : u ∈ unusedIn sf) :
    u.file = sf ∧ u.node ∈ sf.decls ∧ u.node.refCount ≤ 1 ∧ u.reason = "no_refs" ∧
    u.type ≠ "file" ∧
    ((u.node.exported = true ∧
        (u.node.kind = "function" ∨ u.node.kind = "class" ∨ u.node.kind = "variable") ∧
        u.confidence = mkRat 95 100) ∨
      (((u.node.exported = false ∧
          (u.node.kind = "function" ∨ u.node.kind = "class" ∨ u.node.kind = "variable")) ∨
          u.node.kind = "method") ∧
        u.confidence = mkRat 9 10)) := by
  simp only [unusedIn, List.mem_append, List.mem_flatMap, List.mem_filter] at h
  rcases h with ⟨d, ⟨hd, hexp⟩, hmem⟩ | ⟨n, hn, hmem⟩
  · split at hmem
    case isTrue hc =>
      have hu := List.mem_singleton.mp hmem
      subst hu
      exact ⟨rfl, hd, hc.2, rfl, nodeType_ne_file d, Or.inl ⟨hexp, hc.1, rfl⟩⟩
    case isFalse => simp at hmem
  · rcases hmem with ((h1 | h2) | h3) | h4
    · split at h1
      case isTrue hc =>
        have hu := List.mem_singleton.mp h1
        subst hu
        exact ⟨rfl, hn, hc.2.2, rfl, by exact (by decide : ("function" : String) ≠ "file"),
          Or.inr ⟨Or.inl ⟨hc.2.1, Or.inl hc.1⟩, rfl⟩⟩
      case isFalse => simp at h1
    · split at h2
      case isTrue hc =>
        have hu := List.mem_singleton.mp h2
        subst hu
        exact ⟨rfl, hn, hc.2.2, rfl, by exact (by decide : ("class" : String) ≠ "file"),
          Or.inr ⟨Or.inl ⟨hc.2.1, Or.inr (Or.inl hc.1)⟩, rfl⟩⟩
      case isFalse => simp at h2
    · split at h3
      case isTrue hc =>
        have hu := List.mem_singleton.mp h3
        subst hu
        exact ⟨rfl, hn, hc.2.2, rfl, by exact (by decide : ("variable" : String) ≠ "file"),
          Or.inr ⟨Or.inl ⟨hc.2.1, Or.inr (Or.inr hc.1)⟩, rfl⟩⟩
      case isFalse => simp at h3
    · split at h4
      case isTrue hc =>
        have hu := List.mem_singleton.mp h4
        subst hu
        exact ⟨rfl, hn, hc.2, rfl, by exact (by decide : ("method" : String) ≠ "file"),
          Or.inr ⟨Or.inr hc.1, rfl⟩⟩
      case isFalse => simp at h4

/-- Every scanned declaration with at most one reference is reported. -/
theorem unusedIn_complete {sf : SourceUnit} {d : Decl} (hd : d ∈ sf.decls)
    (hkind : d.kind = "function" ∨ d.kind = "class" ∨ d.kind = "variable" ∨
      d.kind = "method")
    (href : d.refCount ≤ 1) : ∃ u ∈ unusedIn sf, u.node = d := by
  by_cases hm : d.kind = "method"
  · refine ⟨⟨d, sf, "method", readableName d, "no_refs", mkRat 9 10⟩, ?_, rfl⟩
    simp only [unusedIn, List.mem_append, List.mem_flatMap]
    right
    refine ⟨d, hd, ?_⟩
    right
    rw [if_pos ⟨hm, href⟩]
    exact List.mem_singleton.mpr rfl
  · have hkind3 : d.kind = "function" ∨ d.kind = "class" ∨ d.kind = "variable" := by
      tauto
    cases hexp : d.exported
    · rcases hkind3 with hk | hk | hk
      · refine ⟨⟨d, sf, "function", readableName d, "no_refs", mkRat 9 10⟩, ?_, rfl⟩
        simp only [unusedIn, List.mem_append, List.mem_flatMap]
        right
        refine ⟨d, hd, ?_⟩
        left; left; left
        rw [if_pos ⟨hk, hexp, href⟩]
        exact List.mem_singleton.mpr rfl
      · refine ⟨⟨d, sf, "class", readableName d, "no_refs", mkRat 9 10⟩, ?_, rfl⟩
        simp only [unusedIn, List.mem_append, List.mem_flatMap]
        right
        refine ⟨d, hd, ?_⟩
        left; left; right
        rw [if_pos ⟨hk, hexp, href⟩]
        exact List.mem_singleton.mpr rfl
      · refine ⟨⟨d, sf, "variable", readableName d, "no_refs", mkRat 9 10⟩, ?_, rfl⟩
        simp only [unusedIn, List.mem_append, List.mem_flatMap]
        right
        refine ⟨d, hd, ?_⟩
        left; right
        rw [if_pos ⟨hk, hexp, href⟩]
        exact List.mem_singleton.mpr rfl
    · refine ⟨⟨d, sf, nodeType d, readableName d, "no_refs", mkRat 95 100⟩, ?_, rfl⟩
      simp only [unusedIn, List.mem_append, List.mem_flatMap, List.mem_filter]
      left
      refine ⟨d, ⟨hd, by rw [hexp]⟩, ?_⟩
      rw [if_pos ⟨hkind3, href⟩]
      exact List.mem_singleton.mpr rfl

/-- Unused symbols come from the scanned files and their own unit. -/
theorem mem_unusedSymbolsOf {files : List SourceUnit} {u : UnusedSym}
    (h : u ∈ unusedSymbolsOf files) : u.file ∈ files ∧ u ∈ unusedIn u.file := by
  simp only [unusedSymbolsOf, List.mem_flatMap] at h
  rcases h with ⟨sf, hsf, hu⟩
  have hfile := (mem_unusedIn hu).1
  exact ⟨by rw [hfile]; exact hsf, by rw [hfile]; exact hu⟩

/-- Symbols surviving the threshold filter. -/
theorem mem_archivedSymsOf {files : List SourceUnit} {conf : ℚ} {u : UnusedSym}
    (h : u ∈ archivedSymsOf files conf) :
    u ∈ unusedSymbolsOf files ∧ conf ≤ u.confidence := by
  simp only [archivedSymsOf, List.mem_filter, decide_eq_true_eq] at h
  exact ⟨h.1, not_lt.mp h.2⟩

/-- Every persisted record comes from one of the two insert loops. -/
theorem mem_persistedItems {pf : List SourceUnit} {opts : ScanOpts}
    {repo commit : String} {t0 : Int} {times : Nat → Int} {item : ArchiveItem}
    (h : item ∈ persistedItems pf opts repo commit t0 times) :
    (∃ j sf, sf ∈ unreachableOf (filesOf pf opts.srcDir)
        (computeReachable (filesOf pf opts.srcDir)
          (entryUnitsOf pf (filesOf pf opts.srcDir) opts)) ∧
      item = mkFileItem repo commit opts.srcDir (t0 + 1000 * 60 * 60 * 24 * 90)
        (times j) sf) ∨
    (∃ j u, u ∈ archivedSymsOf (filesOf pf opts.srcDir) opts.confidence ∧
      item = mkSymItem repo commit opts.srcDir (t0 + 1000 * 60 * 60 * 24 * 90)
        (times j) u) := by
  simp only [persistedItems, List.mem_append] at h
  rcases h with h | h
  · rcases mem_mapWithIdx h with ⟨j, sf, hsf, hitem⟩
    exact Or.inl ⟨j, sf, hsf, hitem⟩
  · rcases mem_mapWithIdx h with ⟨j, u, hu, hitem⟩
    exact Or.inr ⟨(unreachableOf (filesOf pf opts.srcDir)
      (computeReachable (filesOf pf opts.srcDir)
        (entryUnitsOf pf (filesOf pf opts.srcDir) opts))).length + j, u, hu, hitem⟩

end Ck

namespace Ck

/-- Pointwise value of the file-deletion fold. -/
theorem rmFold_at (L : List SourceUnit) (acc : FS) (q : String) :
    (L.foldl (fun a sf => rmForce a sf.path) acc) q =
      if ∃ sf ∈ L, sf.path = q then none else acc q := by
  induction L generalizing acc with
  | nil => simp
  | cons sf t ih =>
    rw [List.foldl_cons, ih]
    by_cases h1 : ∃ v ∈ t, v.path = q
    · have h2 : ∃ v ∈ sf :: t, v.path = q := by
        rcases h1 with ⟨v, hv, he⟩
        exact ⟨v, List.mem_cons_of_mem _ hv, he⟩
      rw [if_pos h1, if_pos h2]
    · rw [if_neg h1]
      by_cases h2 : sf.path = q
      · have h3 : ∃ v ∈ sf :: t, v.path = q := ⟨sf, List.mem_cons_self _ _, h2⟩
        rw [if_pos h3]
        show (if q = sf.path then none else acc q) = none
        rw [if_pos h2.symm]
      · have h3 : ¬ ∃ v ∈ sf :: t, v.path = q := by
          rintro ⟨v, hv, he⟩
          rcases List.mem_cons.mp hv with rfl | hv2
          · exact h2 he
          · exact h1 ⟨v, hv2, he⟩
        rw [if_neg h3]
        show (if q = sf.path then none else acc q) = acc q
        rw [if_neg (fun hq => h2 hq.symm)]

/-- Pointwise value of the symbol-save fold, when every write hitting the
probed path carries the same content. -/
theorem writeFold_at_of_all (L : List UnusedSym) (acc : FS) (q : String)
    (c : List Nat) (hall : ∀ u ∈ L, u.file.path = q → u.file.text = c) :
    (L.foldl (fun a u => fsWrite a u.file.path u.file.text) acc) q =
      if ∃ u ∈ L, u.file.path = q then some c else acc q := by
  induction L generalizing acc with
  | nil => simp
  | cons u t ih =>
    rw [List.foldl_cons, ih _ (fun v hv => hall v (List.mem_cons_of_mem _ hv))]
    by_cases h1 : ∃ v ∈ t, v.file.path = q
    · have h2 : ∃ v ∈ u :: t, v.file.path = q := by
        rcases h1 with ⟨v, hv, he⟩
        exact ⟨v, List.mem_cons_of_mem _ hv, he⟩
      rw [if_pos h1, if_pos h2]
    · rw [if_neg h1]
      by_cases h2 : u.file.path = q
      · have h3 : ∃ v ∈ u :: t, v.file.path = q := ⟨u, List.mem_cons_self _ _, h2⟩
        rw [if_pos h3]
        show (if q = u.file.path then some u.file.text else acc q) = some c
        rw [if_pos h2.symm, hall u (List.mem_cons_self _ _) h2]
      · have h3 : ¬ ∃ v ∈ u :: t, v.file.path = q := by
          rintro ⟨v, hv, he⟩
          rcases List.mem_cons.mp hv with rfl | hv2
          · exact h2 he
          · exact h1 ⟨v, hv2, he⟩
        rw [if_neg h3]
        show (if q = u.file.path then some u.file.text else acc q) = acc q
        rw [if_neg (fun hq => h2 hq.symm)]

/-- The apply stage in apply mode is the deletion fold followed by the
save fold. -/
theorem applyStage_true (fs : FS) (unreach : List SourceUnit) (syms : List UnusedSym) :
    applyStage fs true unreach syms =
      syms.foldl (fun acc u => fsWrite acc u.file.path u.file.text)
        (unreach.foldl (fun acc sf => rmForce acc sf.path) fs) := by
  unfold applyStage
  simp

end Ck

namespace Ck

/-! ## Claim theorems -/

/-- Claim C1, counterexample: a scan run with threshold 1.0 still inserts
the unreachable-file record of `/proj/src/dead.ts`, whose confidence
0.98 is below the threshold — the file-archival loop never consults the
threshold. -/
theorem c1_counterexample :
    ∃ item ∈ persistedItems exProject exOptsStrict "local" "unknown" 0 (fun _ => 0),
      item.confidence < exOptsStrict.confidence := by decide

/-- Claim C1, amended: every record a scan persists either is an
unreachable-file record — those are inserted unconditionally with the
fixed confidence 0.98, whatever the threshold — or is an unused-symbol
record whose confidence is at least the configured threshold. -/
theorem c1_amended (pf : List SourceUnit) (opts : ScanOpts) (repo commit : String)
    (t0 : Int) (times : Nat → Int) :
    ∀ item ∈ persistedItems pf opts repo commit t0 times,
      (item.reason = "unreachable_file" ∧ item.confidence = mkRat 98 100) ∨
      opts.confidence ≤ item.confidence := by
  intro item h
  rcases mem_persistedItems h with ⟨j, sf, _, rfl⟩ | ⟨j, u, hu, rfl⟩
  · exact Or.inl ⟨rfl, rfl⟩
  · exact Or.inr (mem_archivedSymsOf hu).2

/-- Claim C1, witness for the amended theorem on the two-file project. -/
theorem c1_witness :
    mkFileItem "local" "unknown" "src" 7776000000 0 exB ∈
      persistedItems exProject exOpts "local" "unknown" 0 (fun _ => 0) ∧
    (((mkFileItem "local" "unknown" "src" 7776000000 0 exB).reason = "unreachable_file" ∧
        (mkFileItem "local" "unknown" "src" 7776000000 0 exB).confidence = mkRat 98 100) ∨
      exOpts.confidence ≤ (mkFileItem "local" "unknown" "src" 7776000000 0 exB).confidence) :=
  ⟨by decide, c1_amended exProject exOpts "local" "unknown" 0 (fun _ => 0) _ (by decide)⟩

/-- Claim C2, code evaluation at the failing input: in the two-file
project, `/proj/src/dead.ts` is outside the reachable set, yet its
declaration `deadFn` is reported as an unused symbol and an archive
record for it is persisted — the symbol sweep at line 122 runs over all
files of the source directory, not only the reachable ones, contradicting
the comment above it and the specified contract. -/
theorem c2_code_eval :
    norm exB ∉ computeReachable (filesOf exProject "src")
        (entryUnitsOf exProject (filesOf exProject "src") exOpts) ∧
    (∃ u ∈ unusedSymbolsOf (filesOf exProject "src"),
      u.file = exB ∧ u.node = exDeadFn) ∧
    (∃ item ∈ persistedItems exProject exOpts "local" "unknown" 0 (fun _ => 0),
      item.name = some "deadFn" ∧ item.type = "function") := by decide

/-- Claim C3: a scanned declaration of one of the considered kinds is
reported as unused exactly when its syntactic reference count, the
declaration site included, is at most one. -/
theorem c3_unused_iff (files : List SourceUnit) (sf : SourceUnit) (d : Decl)
    (hsf : sf ∈ files) (hd : d ∈ sf.decls)
    (hkind : d.kind = "function" ∨ d.kind = "class" ∨ d.kind = "variable" ∨
      d.kind = "method") :
    (∃ u ∈ unusedSymbolsOf files, u.file = sf ∧ u.node = d) ↔ d.refCount ≤ 1 := by
  constructor
  · rintro ⟨u, hu, _, hnode⟩
    have h := (mem_unusedIn (mem_unusedSymbolsOf hu).2).2.2.1
    rwa [hnode] at h
  · intro href
    rcases unusedIn_complete hd hkind href with ⟨u, hu, hnode⟩
    have hfile := (mem_unusedIn hu).1
    refine ⟨u, ?_, hfile, hnode⟩
    simp only [unusedSymbolsOf, List.mem_flatMap]
    exact ⟨sf, hsf, hu⟩

/-- Claim C3, witness on the two-file project. -/
theorem c3_witness :
    exB ∈ filesOf exProject "src" ∧ exDeadFn ∈ exB.decls ∧
    ((∃ u ∈ unusedSymbolsOf (filesOf exProject "src"),
        u.file = exB ∧ u.node = exDeadFn) ↔ exDeadFn.refCount ≤ 1) :=
  ⟨by decide, by decide,
    c3_unused_iff (filesOf exProject "src") exB exDeadFn (by decide) (by decide) (by decide)⟩

/-- Claim C4: for any project and entry options, the reachable set
contains every resolved entry unit and is closed under one hop of import
resolution: no known unit inside the set has an import that resolves to
a loaded unit outside the set.  The hypothesis states that distinct
loaded units have distinct normalized paths, which ts-morph guarantees. -/
theorem c4_reachability (projectFiles : List SourceUnit) (opts : ScanOpts)
    (hdet : ∀ u ∈ projectFiles, ∀ v ∈ projectFiles, norm u = norm v → u = v) :
    (∀ e ∈ entryUnitsOf projectFiles (filesOf projectFiles opts.srcDir) opts,
      norm e ∈ computeReachable (filesOf projectFiles opts.srcDir)
        (entryUnitsOf projectFiles (filesOf projectFiles opts.srcDir) opts)) ∧
    (∀ u ∈ entryUnitsOf projectFiles (filesOf projectFiles opts.srcDir) opts
        ++ filesOf projectFiles opts.srcDir,
      norm u ∈ computeReachable (filesOf projectFiles opts.srcDir)
        (entryUnitsOf projectFiles (filesOf projectFiles opts.srcDir) opts) →
      ∀ t ∈ u.imports, ∀ r,
        resolveImport u t (mapOf (filesOf projectFiles opts.srcDir)) = some r →
        norm r ∈ computeReachable (filesOf projectFiles opts.srcDir)
          (entryUnitsOf projectFiles (filesOf projectFiles opts.srcDir) opts)) := by
  apply computeReachable_spec
  intro u hu v hv
  have hu2 : u ∈ projectFiles := by
    rcases List.mem_append.mp hu with h | h
    · exact mem_entryUnitsOf h
    · exact mem_filesOf h
  have hv2 : v ∈ projectFiles := by
    rcases List.mem_append.mp hv with h | h
    · exact mem_entryUnitsOf h
    · exact mem_filesOf h
  exact hdet u hu2 v hv2

/-- Claim C4, witness: the entry unit of the two-file project is in its
own reachable set. -/
theorem c4_witness :
    (∀ u ∈ exProject, ∀ v ∈ exProject, norm u = norm v → u = v) ∧
    norm exA ∈ computeReachable (filesOf exProject "src")
      (entryUnitsOf exProject (filesOf exProject "src") exOpts) :=
  ⟨by decide, (c4_reachability exProject exOpts (by decide)).1 exA (by decide)⟩

/-- Claim C5: the base64 content of every record a scan builds decodes
back to the exact original bytes — the whole file text for an
unreachable-file record, the node text for an unused-symbol record — and
restoring a stored record by its id emits exactly that decoded content;
restore is a pure lookup and decode, so repetition returns the same
bytes. -/
theorem c5_roundtrip (files : List SourceUnit) (reachable : List String) (conf : ℚ)
    (repo commit srcDir : String) (ttl t : Int) :
    (∀ sf ∈ unreachableOf files reachable, (∀ x ∈ sf.text, x < 256) →
      b64decode (mkFileItem repo commit srcDir ttl t sf).contentB64 = sf.text) ∧
    (∀ u ∈ archivedSymsOf files conf, (∀ x ∈ u.node.text, x < 256) →
      b64decode (mkSymItem repo commit srcDir ttl t u).contentB64 = u.node.text) ∧
    (∀ (id mongoUri : String) (item : ArchiveItem),
      mongoUri ≠ "" → isValidObjectIdStr id = true →
      restoreCommand id mongoUri none [(id, item)] =
        ⟨0, false, [], some (b64decode item.contentB64)⟩) := by
  refine ⟨?_, ?_, ?_⟩
  · intro sf _ hbytes
    exact b64_roundtrip sf.text hbytes
  · intro u _ hbytes
    exact b64_roundtrip u.node.text hbytes
  · intro id mongoUri item hm hv
    unfold restoreCommand
    rw [if_neg hm, if_neg (by simp [hv])]
    simp [List.find?]

/-- Claim C5, witness on the unreachable file of the two-file project. -/
theorem c5_witness :
    exB ∈ unreachableOf (filesOf exProject "src") ["/proj/src/index.ts"] ∧
    (∀ x ∈ exB.text, x < 256) ∧
    b64decode (mkFileItem "local" "unknown" "src" 7776000000 0 exB).contentB64 = exB.text :=
  ⟨by decide, by decide,
    (c5_roundtrip (filesOf exProject "src") ["/proj/src/index.ts"] (mkRat 9 10)
      "local" "unknown" "src" 7776000000 0).1 exB (by decide) (by decide)⟩

/-- Claim C6, counterexample: with apply mode on, `/proj/src/dead.ts` is
archived as an unreachable file and deleted, but its archived unused
symbol is then saved with `saveSync`, which writes the unit text back:
after the scan the file exists again, so it is not deleted from the file
system as the claim states. -/
theorem c6_counterexample :
    exB ∈ unreachableOf (filesOf exProject "src")
        (computeReachable (filesOf exProject "src")
          (entryUnitsOf exProject (filesOf exProject "src") exOptsApply)) ∧
    (∃ u ∈ archivedSymsOf (filesOf exProject "src") exOptsApply.confidence,
      u.file = exB) ∧
    scanFinalFS exProject exOptsApply exFS "/proj/src/dead.ts" = some [98, 10] := by decide

/-- Claim C6, amended: in apply mode every archived symbol's owning file
keeps its original on-disk content (the save writes the unmodified unit
text back) and the symbol is reported with the not-implemented warning
and the `archived` line, never the deletion line, which only unreachable
files produce; an archived unreachable file whose path owns no archived
symbol is absent from the final file system, and force-removal of an
already missing file leaves the file system unchanged. -/
theorem c6_amended (files : List SourceUnit) (reachable : List String)
    (conf : ℚ) (srcDir : String) (fs : FS)
    (htext : ∀ f ∈ files, ∀ g ∈ files, f.path = g.path → f.text = g.text)
    (hfs : ∀ f ∈ files, fs f.path = some f.text) :
    (∀ u ∈ archivedSymsOf files conf,
      applyStage fs true (unreachableOf files reachable) (archivedSymsOf files conf)
        u.file.path = fs u.file.path) ∧
    (∀ sf ∈ unreachableOf files reachable,
      (∀ u ∈ archivedSymsOf files conf, u.file.path ≠ sf.path) →
      applyStage fs true (unreachableOf files reachable) (archivedSymsOf files conf)
        sf.path = none) ∧
    (∀ p, fs p = none → rmForce fs p = fs) ∧
    (∀ u ∈ archivedSymsOf files conf,
      ScanEvent.symbolRemovalNotImplemented u.name ∈
        scanEventsOf (unreachableOf files reachable) (archivedSymsOf files conf)
          true srcDir ∧
      ScanEvent.symbolMarkedArchived u.name ∈
        scanEventsOf (unreachableOf files reachable) (archivedSymsOf files conf)
          true srcDir) ∧
    (∀ p, ScanEvent.fileDeleted p ∈
        scanEventsOf (unreachableOf files reachable) (archivedSymsOf files conf)
          true srcDir →
      ∃ sf ∈ unreachableOf files reachable, p = rel sf srcDir) := by
  have hfile_mem : ∀ u ∈ archivedSymsOf files conf, u.file ∈ files := fun u hu =>
    (mem_unusedSymbolsOf (mem_archivedSymsOf hu).1).1
  refine ⟨?_, ?_, ?_, ?_, ?_⟩
  · intro u hu
    rw [applyStage_true, writeFold_at_of_all _ _ _ u.file.text
      (fun v hv he => htext v.file (hfile_mem v hv) u.file (hfile_mem u hu) he)]
    rw [if_pos ⟨u, hu, rfl⟩, hfs u.file (hfile_mem u hu)]
  · intro sf hsf hnone
    rw [applyStage_true, writeFold_at_of_all _ _ _ ([] : List Nat)
      (fun v hv he => absurd he (hnone v hv))]
    rw [if_neg (by rintro ⟨v, hv, he⟩; exact hnone v hv he), rmFold_at,
      if_pos ⟨sf, hsf, rfl⟩]
  · intro p hp
    funext q
    show (if q = p then none else fs q) = fs q
    by_cases hq : q = p
    · rw [if_pos hq, hq, hp]
    · rw [if_neg hq]
  · intro u hu
    refine ⟨?_, ?_⟩ <;>
    · simp only [scanEventsOf, List.mem_append, List.mem_flatMap]
      right
      exact ⟨u, hu, by simp⟩
  · intro p hp
    simp only [scanEventsOf, List.mem_append, List.mem_flatMap] at hp
    rcases hp with ⟨sf, hsf, hev⟩ | ⟨u, hu, hev⟩
    · simp only [if_true, List.mem_cons, List.mem_singleton] at hev
      rcases hev with hev | hev
      · cases hev
      · rcases hev with hev | hev
        · cases hev
          exact ⟨sf, hsf, rfl⟩
        · simp at hev
    · simp at hev

end Ck

namespace Ck

/-- Claim C6, witness for the amended theorem: the file owning the
archived symbol `deadFn` has the same on-disk content after an
apply-mode pass as before it. -/
theorem c6_witness :
    exUnused ∈ archivedSymsOf [exA, exB] (mkRat 9 10) ∧
    applyStage exFS true (unreachableOf [exA, exB] ["/proj/src/index.ts"])
      (archivedSymsOf [exA, exB] (mkRat 9 10)) exUnused.file.path =
      exFS exUnused.file.path :=
  ⟨by decide,
    (c6_amended [exA, exB] ["/proj/src/index.ts"] (mkRat 9 10) "src" exFS
      (by decide) (by decide)).1 exUnused (by decide)⟩

/-- Claim C7, counterexample: the expiry timestamp is computed once from
`Date.now()` before the insert loops, while each record's `createdAt` is
its own later `new Date()`; with the scan started at time 0 and the
record inserted at time 1000, `expiresAt` is 90 days after 0, not 90
days after `createdAt`. -/
theorem c7_counterexample :
    ∃ item ∈ persistedItems exProject exOpts "local" "unknown" 0 (fun _ => 1000),
      item.expiresAt ≠ item.createdAt + 1000 * 60 * 60 * 24 * 90 := by decide

/-- Claim C7, amended: every record of one scan carries the same
`expiresAt`, equal to the scan-start clock reading plus exactly 90 days
(the 90 is hard-coded at line 197; no `ttlDays` option is read), so it
equals `createdAt + 90` days only when no time elapses before the
insert. -/
theorem c7_amended (pf : List SourceUnit) (opts : ScanOpts) (repo commit : String)
    (t0 : Int) (times : Nat → Int) :
    ∀ item ∈ persistedItems pf opts repo commit t0 times,
      item.expiresAt = t0 + 1000 * 60 * 60 * 24 * 90 := by
  intro item h
  rcases mem_persistedItems h with ⟨j, sf, _, rfl⟩ | ⟨j, u, _, rfl⟩ <;> rfl

/-- Claim C7, witness for the amended theorem. -/
theorem c7_witness :
    mkFileItem "local" "unknown" "src" 7776000000 1000 exB ∈
      persistedItems exProject exOpts "local" "unknown" 0 (fun _ => 1000) ∧
    (mkFileItem "local" "unknown" "src" 7776000000 1000 exB).expiresAt =
      0 + 1000 * 60 * 60 * 24 * 90 :=
  ⟨by decide, c7_amended exProject exOpts "local" "unknown" 0 (fun _ => 1000) _ (by decide)⟩

/-- Claim C8: the detector's confidence values are the fixed constants of
the source — 0.95 for an exported unused function, class or variable
declaration, 0.9 for a non-exported unused declaration and for every
unused method, and 0.98 for every unreachable-file record — independent
of the scanned project. -/
theorem c8_confidences :
    (∀ (files : List SourceUnit), ∀ u ∈ unusedSymbolsOf files,
      (u.node.exported = true ∧ u.node.kind ≠ "method" →
        u.confidence = mkRat 95 100) ∧
      ((u.node.exported = false ∨ u.node.kind = "method") →
        u.confidence = mkRat 9 10)) ∧
    (∀ (pf : List SourceUnit) (opts : ScanOpts) (repo commit : String) (t0 : Int)
      (times : Nat → Int), ∀ item ∈ persistedItems pf opts repo commit t0 times,
      item.type = "file" → item.confidence = mkRat 98 100) := by
  constructor
  · intro files u hu
    have hdis := (mem_unusedIn (mem_unusedSymbolsOf hu).2).2.2.2.2.2
    constructor
    · rintro ⟨hexp, hnm⟩
      rcases hdis with ⟨_, _, hc⟩ | ⟨hd, hc⟩
      · exact hc
      · rcases hd with ⟨hne, _⟩ | hm
        · rw [hexp] at hne
          cases hne
        · exact absurd hm hnm
    · intro hd2
      rcases hdis with ⟨hexp, hkinds, hc⟩ | ⟨_, hc⟩
      · rcases hd2 with hne | hm
        · rw [hexp] at hne
          cases hne
        · rcases hkinds with hk | hk | hk <;> rw [hk] at hm <;> exact absurd hm (by decide)
      · exact hc
  · intro pf opts repo commit t0 times item h htype
    rcases mem_persistedItems h with ⟨_, _, _, rfl⟩ | ⟨_, u, hu, rfl⟩
    · rfl
    · have hne := (mem_unusedIn (mem_unusedSymbolsOf (mem_archivedSymsOf hu).1).2).2.2.2.2.1
      exact absurd htype hne

/-- Claim C8, witness: the non-exported function `deadFn` gets the fixed
confidence 0.9. -/
theorem c8_witness :
    exUnused ∈ unusedSymbolsOf (filesOf exProject "src") ∧
    ((exUnused.node.exported = false ∨ exUnused.node.kind = "method") →
      exUnused.confidence = mkRat 9 10) :=
  ⟨by decide, (c8_confidences.1 (filesOf exProject "src") exUnused (by decide)).2⟩

/-- Claim C9, code evaluation at the failing input: restoring the literal
id `nonexistent-id` makes `new ObjectId(id)` throw (it is neither a
24-character hex string nor a 12-character one), so the process crashes
with an uncaught BSON error instead of printing the not-found message;
a well-formed 24-hex id that is absent from the store does exit cleanly
with code 1 and no file written. -/
theorem c9_code_eval :
    restoreCommand "nonexistent-id" "mongodb://localhost" none [] =
      ⟨1, true, [], none⟩ ∧
    restoreCommand "507f1f77bcf86cd799439011" "mongodb://localhost" none [] =
      ⟨1, false, [], none⟩ := by decide

/-- Claim C10: a unit matching a keep-exempt pattern is never in the
unreachable output, whatever the computed reachable set is. -/
theorem c10_keepExempt (files : List SourceUnit) (reachable : List String)
    (sf : SourceUnit) (hk : isDefinitelyKeep sf = true) :
    sf ∉ unreachableOf files reachable := by
  intro hmem
  have h := (List.mem_filter.mp hmem).2
  simp only [decide_eq_true_eq] at h
  rw [hk] at h
  cases h.2

/-- Claim C10, witness: the test file is kept even with an empty
reachable set. -/
theorem c10_witness :
    isDefinitelyKeep exKeep = true ∧ exKeep ∉ unreachableOf [exA, exKeep] [] :=
  ⟨by decide, c10_keepExempt [exA, exKeep] [] exKeep (by decide)⟩

end Ck
